import Mathlib

/-!
Verification of the `filterdir` package (src/filterdir.go).

The Go source is shallowly embedded below:

* `splitSlashCore` / `splitSlash` / `joinSlash` model Go's
  `strings.Split(s, "/")` and `strings.Join(parts, "/")` on the underlying
  character lists; `goSplit` / `goJoin` wrap them for `String`.
* `loadIncludeList` models `FilterDir.loadIncludeList` (filterdir.go:168-178).
* `GoError`, `StoreFile`, `File`, `FilterDir`, `FilterDir.Open`,
  `File.Readdir` model the filesystem middleware (filterdir.go:110-166,
  253-278).  The resource store `http.Dir` is opaque in the design, so it is
  a function `String → Except GoError StoreFile`; the Go runtime panic from
  the out-of-range slice `f.name[len(f.name)-1:]` on an empty name is
  modelled by `File.Readdir` returning `none`.
* `Options.fillMissing` models filterdir.go:314-330.
* `ReqState` with `recordOp`, `listOp`, `changedOp`, `clearOp` models the
  state of the request-processing goroutine `processRequests`
  (filterdir.go:332-370) together with the `sortedList` accessors
  `List`, `Changed`, `Clear` (filterdir.go:379-390).
-/

/-- Core of Go's `strings.Split(s, "/")` on character lists: returns the
segment currently being accumulated and the list of later segments. -/
def splitSlashCore : List Char → List Char × List (List Char)
  | [] => ([], [])
  | c :: rest =>
    if c = '/' then ([], (splitSlashCore rest).1 :: (splitSlashCore rest).2)
    else (c :: (splitSlashCore rest).1, (splitSlashCore rest).2)

/-- Go's `strings.Split(s, "/")` on character lists.  The result is always
nonempty, mirroring `strings.Split`. -/
def splitSlash (s : List Char) : List (List Char) :=
  (splitSlashCore s).1 :: (splitSlashCore s).2

/-- Go's `strings.Join(parts, "/")` on character lists. -/
def joinSlash : List (List Char) → List Char
  | [] => []
  | [x] => x
  | x :: y :: xs => x ++ '/' :: joinSlash (y :: xs)

/-- Go's `strings.Split(file, "/")` for `String`. -/
def goSplit (s : String) : List String :=
  (splitSlash s.data).map String.mk

/-- Go's `strings.Join(dirs, "/")` for `String`. -/
def goJoin (parts : List String) : String :=
  String.mk (joinSlash (parts.map String.data))

/-- Model of `FilterDir.loadIncludeList` (filterdir.go:168-178): the include
set (here: the list of keys inserted into the `include` map) starts with
`"/"`, and for each file of the include list inserts the file itself and
`strings.Join(dirs[:i], "/")` for every `i` with `2 <= i < len(dirs)`,
where `dirs = strings.Split(file, "/")`. -/
def loadIncludeList (includeList : List String) : List String :=
  includeList.foldl
    (fun inc file =>
      let dirs := goSplit file
      (List.range' 2 (dirs.length - 2)).foldl
        (fun inc2 i => inc2 ++ [goJoin (dirs.take i)])
        (inc ++ [file]))
    ["/"]

/-- The ancestors inserted by the inner loop of `loadIncludeList` for one
file of the include list. -/
def ancestorsOf (q : String) : List String :=
  (List.range' 2 ((goSplit q).length - 2)).map (fun i => goJoin ((goSplit q).take i))

theorem joinSlash_splitSlash : ∀ s : List Char, joinSlash (splitSlash s) = s := by
  intro s
  induction s with
  | nil => rfl
  | cons c rest ih =>
    unfold splitSlash at ih ⊢
    by_cases hc : c = '/'
    · simp only [splitSlashCore, hc, if_true, if_pos]
      show ([] : List Char) ++ '/' :: joinSlash ((splitSlashCore rest).1 :: (splitSlashCore rest).2) = '/' :: rest
      rw [List.nil_append, ih]
    · simp only [splitSlashCore, if_neg hc]
      rcases h2 : (splitSlashCore rest).2 with _ | ⟨t0, ts⟩
      · rw [h2] at ih
        show c :: (splitSlashCore rest).1 = c :: rest
        rw [show joinSlash [(splitSlashCore rest).1] = (splitSlashCore rest).1 from rfl] at ih
        rw [ih]
      · rw [h2] at ih
        show (c :: (splitSlashCore rest).1) ++ '/' :: joinSlash (t0 :: ts) = c :: rest
        rw [show joinSlash ((splitSlashCore rest).1 :: t0 :: ts)
              = (splitSlashCore rest).1 ++ '/' :: joinSlash (t0 :: ts) from rfl] at ih
        rw [List.cons_append, ih]

theorem splitSlashCore_append (x y : List Char) :
    splitSlashCore (x ++ '/' :: y) = ((splitSlashCore x).1, (splitSlashCore x).2 ++ splitSlash y) := by
  induction x with
  | nil =>
    simp [splitSlashCore, splitSlash]
  | cons c x ih =>
    by_cases hc : c = '/'
    · simp [splitSlashCore, hc, ih]
    · simp [splitSlashCore, hc, ih]

theorem splitSlash_append (x y : List Char) :
    splitSlash (x ++ '/' :: y) = splitSlash x ++ splitSlash y := by
  unfold splitSlash
  rw [splitSlashCore_append]
  simp [splitSlash]

theorem joinSlash_append (A B : List (List Char)) (hA : A ≠ []) (hB : B ≠ []) :
    joinSlash (A ++ B) = joinSlash A ++ '/' :: joinSlash B := by
  induction A with
  | nil => exact absurd rfl hA
  | cons a A ih =>
    rcases A with _ | ⟨a2, A⟩
    · rcases B with _ | ⟨b, B⟩
      · exact absurd rfl hB
      · rfl
    · have := ih (by simp)
      show (a ++ '/' :: joinSlash ((a2 :: A) ++ B)) = (a ++ '/' :: joinSlash (a2 :: A)) ++ '/' :: joinSlash B
      rw [this, List.append_assoc, List.cons_append]

theorem splitSlash_slash_cons (s : List Char) :
    splitSlash ('/' :: s) = [] :: splitSlash s := by
  simp [splitSlash, splitSlashCore]

theorem foldl_append_map {α β : Type} (g : α → β) (is : List α) (init : List β) :
    is.foldl (fun acc i => acc ++ [g i]) init = init ++ is.map g := by
  induction is generalizing init with
  | nil => simp
  | cons i is ih => simp [ih]

theorem loadIncludeList_go (l : List String) (init : List String) :
    l.foldl
      (fun inc file =>
        let dirs := goSplit file
        (List.range' 2 (dirs.length - 2)).foldl
          (fun inc2 i => inc2 ++ [goJoin (dirs.take i)])
          (inc ++ [file]))
      init
    = init ++ l.flatMap (fun q => q :: ancestorsOf q) := by
  induction l generalizing init with
  | nil => simp
  | cons q l ih =>
    rw [List.foldl_cons]
    show l.foldl _
        ((List.range' 2 ((goSplit q).length - 2)).foldl
          (fun inc2 i => inc2 ++ [goJoin ((goSplit q).take i)]) (init ++ [q]))
      = _
    rw [ih, foldl_append_map (fun i => goJoin ((goSplit q).take i))]
    simp [ancestorsOf, List.append_assoc]

theorem loadIncludeList_eq (l : List String) :
    loadIncludeList l = "/" :: l.flatMap (fun q => q :: ancestorsOf q) := by
  unfold loadIncludeList
  rw [loadIncludeList_go]
  rfl

theorem take_nonempty_of_lt {α : Type} (L : List α) (i : ℕ) (h0 : 0 < i) (h : i < L.length) :
    L.take i ≠ [] := by
  have hpos : 0 < (L.take i).length := by
    rw [List.length_take]
    omega
  intro hcon
  rw [hcon] at hpos
  simp at hpos

theorem drop_nonempty_of_lt {α : Type} (L : List α) (i : ℕ) (h : i < L.length) :
    L.drop i ≠ [] := by
  have hpos : 0 < (L.drop i).length := by
    rw [List.length_drop]
    omega
  intro hcon
  rw [hcon] at hpos
  simp at hpos

theorem ancestor_char (t p : List Char) :
    (∃ i, 2 ≤ i ∧ i < (splitSlash ('/' :: t)).length ∧ p = joinSlash ((splitSlash ('/' :: t)).take i))
    ↔ (p ≠ [] ∧ ∃ rest : List Char, '/' :: t = p ++ '/' :: rest) := by
  constructor
  · rintro ⟨i, h2, hlt, rfl⟩
    constructor
    · obtain ⟨i', rfl⟩ : ∃ i', i = i' + 2 := ⟨i - 2, by omega⟩
      rw [splitSlash_slash_cons]
      show joinSlash (([] : List Char) :: ((splitSlashCore t).1 :: (splitSlashCore t).2).take (i' + 1)) ≠ []
      rw [List.take_succ_cons]
      show ('/' :: joinSlash ((splitSlashCore t).1 :: ((splitSlashCore t).2).take i')) ≠ []
      exact List.cons_ne_nil _ _
    · refine ⟨joinSlash ((splitSlash ('/' :: t)).drop i), ?_⟩
      conv_lhs => rw [← joinSlash_splitSlash ('/' :: t)]
      conv_lhs => rw [← List.take_append_drop i (splitSlash ('/' :: t))]
      exact joinSlash_append _ _
        (take_nonempty_of_lt _ _ (by omega) hlt)
        (drop_nonempty_of_lt _ _ hlt)
  · rintro ⟨hp, rest, heq⟩
    rcases p with _ | ⟨c, p'⟩
    · exact absurd rfl hp
    · have hc : c = '/' := by
        have := congrArg List.head? heq
        simpa using this.symm
      subst hc
      have ht : '/' :: t = ('/' :: p') ++ '/' :: rest := heq
      refine ⟨(splitSlash ('/' :: p')).length, ?_, ?_, ?_⟩
      · rw [splitSlash_slash_cons]
        show 2 ≤ (([] : List Char) :: (splitSlashCore p').1 :: (splitSlashCore p').2).length
        simp
      · rw [ht, splitSlash_append, List.length_append]
        have : 0 < (splitSlash rest).length := by
          show 0 < ((splitSlashCore rest).1 :: (splitSlashCore rest).2).length
          simp
        omega
      · rw [ht, splitSlash_append, List.take_left, joinSlash_splitSlash]

theorem data_mk (cs : List Char) : (String.mk cs).data = cs := rfl

theorem string_eq_iff_data (s t : String) : s = t ↔ s.data = t.data :=
  ⟨congrArg String.data, String.ext⟩

theorem goSplit_length (q : String) : (goSplit q).length = (splitSlash q.data).length := by
  simp [goSplit]

theorem goJoin_goSplit_take (q : String) (i : ℕ) :
    goJoin ((goSplit q).take i) = String.mk (joinSlash ((splitSlash q.data).take i)) := by
  unfold goJoin goSplit
  rw [← List.map_take, List.map_map]
  congr 1
  congr 1
  apply List.map_id''
  intro cs
  rfl

/-- The ancestor-membership characterization lifted to `String`:
for an absolute path `q`, a path `p` is produced by the inner
ancestor loop of `loadIncludeList` exactly when `p` is a nonempty
prefix of `q` that is truncated at a `/` boundary. -/
theorem ancestorsOf_mem (q : String) (hq : q.data.head? = some '/') (p : String) :
    p ∈ ancestorsOf q ↔ (p ≠ "" ∧ ∃ rest : String, q = p ++ "/" ++ rest) := by
  obtain ⟨t, ht⟩ : ∃ t, q.data = '/' :: t := by
    rcases hd : q.data with _ | ⟨c, t⟩
    · rw [hd] at hq
      simp at hq
    · rw [hd] at hq
      simp at hq
      exact ⟨t, by rw [hq]⟩
  have hlen2 : 2 ≤ (splitSlash q.data).length := by
    rw [ht, splitSlash_slash_cons]
    show 2 ≤ (([] : List Char) :: (splitSlashCore t).1 :: (splitSlashCore t).2).length
    simp
  constructor
  · intro hmem
    unfold ancestorsOf at hmem
    rw [List.mem_map] at hmem
    obtain ⟨i, hi, hpi⟩ := hmem
    rw [List.mem_range'_1, goSplit_length] at hi
    have hchar := (ancestor_char t p.data).mp
      ⟨i, hi.1, by rw [← ht]; omega, by
        rw [← ht]
        rw [goJoin_goSplit_take] at hpi
        rw [string_eq_iff_data] at hpi
        rw [← hpi]⟩
    refine ⟨?_, ?_⟩
    · intro hcon
      rw [string_eq_iff_data] at hcon
      exact hchar.1 hcon
    · obtain ⟨rest, hrest⟩ := hchar.2
      refine ⟨String.mk rest, ?_⟩
      rw [string_eq_iff_data, String.data_append, String.data_append, data_mk]
      rw [ht, hrest]
      simp
  · rintro ⟨hp, rest, hrest⟩
    have hpd : p.data ≠ [] := by
      intro hcon
      exact hp (String.ext hcon)
    have hqd : '/' :: t = p.data ++ '/' :: rest.data := by
      rw [← ht]
      rw [string_eq_iff_data] at hrest
      rw [hrest, String.data_append, String.data_append]
      simp
    obtain ⟨i, hi2, hilt, hpi⟩ := (ancestor_char t p.data).mpr ⟨hpd, rest.data, hqd⟩
    unfold ancestorsOf
    rw [List.mem_map]
    refine ⟨i, ?_, ?_⟩
    · rw [List.mem_range'_1, goSplit_length, ht]
      rw [ht] at hlen2
      exact ⟨hi2, by omega⟩
    · rw [goJoin_goSplit_take, string_eq_iff_data, data_mk, ht, ← hpi]

/-- C2, amended: for every supplied include list of ABSOLUTE paths (paths
beginning with `/`, as the ResourcePath data model prescribes), the
inclusion set built by `loadIncludeList` contains exactly the root `"/"`,
every listed path, and every strict ancestor of a listed path (every
nonempty prefix cut at a `/` boundary); in particular for
`["/css/app.css", "/js/app.js"]` it is
`{"/", "/css", "/css/app.css", "/js", "/js/app.js"}`.  The restriction to
absolute paths is forced by `loadIncludeList_misses_relative_ancestor`. -/
theorem loadIncludeList_characterization :
    (∀ (l : List String), (∀ q ∈ l, q.data.head? = some '/') →
      ∀ p : String, p ∈ loadIncludeList l ↔
        (p = "/" ∨ p ∈ l ∨ ∃ q ∈ l, p ≠ "" ∧ ∃ rest : String, q = p ++ "/" ++ rest))
    ∧ (loadIncludeList ["/css/app.css", "/js/app.js"]).toFinset =
        {"/", "/css", "/css/app.css", "/js", "/js/app.js"} := by
  constructor
  · intro l habs p
    rw [loadIncludeList_eq, List.mem_cons, List.mem_flatMap]
    constructor
    · rintro (h | ⟨q, hq, hmem⟩)
      · exact Or.inl h
      · rw [List.mem_cons] at hmem
        rcases hmem with rfl | hmem
        · exact Or.inr (Or.inl hq)
        · exact Or.inr (Or.inr ⟨q, hq, (ancestorsOf_mem q (habs q hq) p).mp hmem⟩)
    · rintro (h | h | ⟨q, hq, hanc⟩)
      · exact Or.inl h
      · exact Or.inr ⟨p, h, List.mem_cons_self _ _⟩
      · exact Or.inr ⟨q, hq, List.mem_cons_of_mem _ ((ancestorsOf_mem q (habs q hq) p).mpr hanc)⟩
  · decide

/-- C2, counterexample: for the relative-path include list `["a/b"]` the
claim fails as stated — `"a"` is a strict ancestor of the listed path
`"a/b"` (a nonempty prefix cut at a `/` boundary: `"a/b" = "a" ++ "/" ++
"b"`), yet the built inclusion set does not contain it, because the inner
loop of `loadIncludeList` starts at index 2 and thereby always skips the
first path segment. -/
theorem loadIncludeList_misses_relative_ancestor :
    ("a" : String) ∉ loadIncludeList ["a/b"] ∧
    (("a" : String) ≠ "" ∧ ("a/b" : String) = "a" ++ "/" ++ "b") :=
  ⟨by decide, by decide, rfl⟩

/-- Witness for C2 at the include list of the spec's example: the absolute-path
hypothesis holds for it, and the characterization applies, e.g. at `"/css"`. -/
theorem loadIncludeList_characterization_witness :
    (∀ q ∈ (["/css/app.css", "/js/app.js"] : List String), q.data.head? = some '/')
    ∧ (("/css" : String) ∈ loadIncludeList ["/css/app.css", "/js/app.js"] ↔
        (("/css" : String) = "/" ∨ ("/css" : String) ∈ (["/css/app.css", "/js/app.js"] : List String)
          ∨ ∃ q ∈ (["/css/app.css", "/js/app.js"] : List String),
              ("/css" : String) ≠ "" ∧ ∃ rest : String, q = "/css" ++ "/" ++ rest)) :=
  ⟨by decide, loadIncludeList_characterization.1 _ (by decide) "/css"⟩

/-- Errors of the Go error interface as they occur in filterdir:
`errNotExist` is `os.ErrNotExist` (returned by the filter veto,
filterdir.go:165), `pathNotExist p` is the not-found `*PathError` that
`http.Dir.Open` produces for a path absent from the store, `eof` is
`io.EOF` as signalled at the end of a directory listing, and `other`
covers any further store failure (permission, I/O). -/
inductive GoError where
  | errNotExist : GoError
  | pathNotExist : String → GoError
  | eof : GoError
  | other : String → GoError
deriving DecidableEq

/-- Models `os.IsNotExist`: both the filter veto's `os.ErrNotExist` and the
store's own not-found error are classified as not-found. -/
def GoError.isNotExist : GoError → Bool
  | .errNotExist => true
  | .pathNotExist _ => true
  | .eof => false
  | .other _ => false

/-- A directory entry as returned by `Readdir` (`os.FileInfo`): its name
plus an abstract payload standing for the remaining metadata. -/
structure FileInfo where
  name : String
  size : Int
deriving DecidableEq

/-- An opened resource of the opaque store (`http.File` for `http.Dir`):
the design treats the store as an opaque provider, so only its `Readdir`
behaviour is modelled, as a function of the requested count. -/
structure StoreFile where
  readdir : Int → List FileInfo × Option GoError

/-- The filtering wrapper `File` (filterdir.go:257-261) with its stored
name and its reference to the include set (`include map[string]struct{}`,
modelled as the list of keys). -/
structure File where
  file : StoreFile
  name : String
  includeSet : List String

/-- Result of `FilterDir.Open`: in discovery mode the store's file is
returned unwrapped, in filter mode it is wrapped in `File`. -/
inductive OpenedFile where
  | store : StoreFile → OpenedFile
  | filtered : File → OpenedFile

/-- The `FilterDir` middleware (filterdir.go:110-125).  `dir` is the opaque
resource store `http.Dir`; `includeSet = some inc` models the state after
`loadOnce` has run (`include` built), `none` before; `requests` is the
sequence of names sent on the `requests` channel in discovery mode. -/
structure FilterDir where
  dir : String → Except GoError StoreFile
  FilterMode : Bool
  IncludeList : List String
  includeSet : Option (List String)
  requests : List String

/-- The include set `FilterDir.Open` consults in filter mode: the one that
`loadOnce` already built, or else the one `loadIncludeList` builds from the
current `IncludeList`. -/
def effInclude (f : FilterDir) : List String :=
  f.includeSet.getD (loadIncludeList f.IncludeList)

/-- Model of `FilterDir.Open` (filterdir.go:145-166): delegate to the store;
on failure propagate the error unchanged; in discovery mode send the name on
the requests channel and return the file; in filter mode build the include
set once, wrap included names, and veto others with `os.ErrNotExist`. -/
def FilterDir.Open (f : FilterDir) (name : String) :
    Except GoError OpenedFile × FilterDir :=
  match f.dir name with
  | .error e => (.error e, f)
  | .ok file =>
    if f.FilterMode = false then
      (.ok (.store file), { f with requests := f.requests ++ [name] })
    else
      if (effInclude f).contains name then
        (.ok (.filtered ⟨file, name, effInclude f⟩), { f with includeSet := some (effInclude f) })
      else
        (.error .errNotExist, { f with includeSet := some (effInclude f) })

/-- The trailing-separator strip of `File.Readdir` (filterdir.go:267-269):
remove the final character when it is `'/'`.  Go slices bytes, but the
branch is only taken when the final byte is `'/'`, in which case dropping
one byte is dropping the final character. -/
def stripSlash (s : String) : String :=
  if s.data.getLast? = some '/' then String.mk s.data.dropLast else s

/-- Model of `File.Readdir` (filterdir.go:265-278): the slice expression
`f.name[len(f.name)-1:]` panics when the stored name is empty, modelled as
`none`; otherwise the stripped name is written back to `f.name`, the store
is asked for entries, and only entries whose full path `f.name + "/" + name`
is in the include set are kept, with the store's error passed through. -/
def File.Readdir (f : File) (count : Int) :
    Option ((List FileInfo × Option GoError) × File) :=
  if f.name = "" then none
  else
    let name := stripSlash f.name
    let res := f.file.readdir count
    some ((res.1.filter (fun i => f.includeSet.contains (name ++ "/" ++ i.name)), res.2),
          { f with name := name })

/-- The configuration record `Options` (filterdir.go:281-311). -/
structure Options where
  Filename : String
  PackageName : String
  VfsgenBuildTags : String
  VariableName : String
  VariableComment : String
  ListFileName : String
  ListFileBuildTags : String
deriving DecidableEq

/-- Model of `Options.fillMissing` (filterdir.go:314-330): set default
values for the five options the method touches when they are empty. -/
def Options.fillMissing (opt : Options) : Options :=
  let o1 := if opt.PackageName = "" then { opt with PackageName := "main" } else opt
  let o2 := if o1.VariableName = "" then { o1 with VariableName := "assets" } else o1
  let o3 := if o2.ListFileName = "" then { o2 with ListFileName := "assets_list.go" } else o2
  let o4 := if o3.VfsgenBuildTags = "" then { o3 with VfsgenBuildTags := "!dev" } else o3
  if o4.ListFileBuildTags = "" then { o4 with ListFileBuildTags := "dev" } else o4

/-- State held by the goroutine of `processRequests` (filterdir.go:332-370):
`includeList` and `includeMap` accumulate distinct requested paths, and the
single boolean `changed` is set by record and clear, tested and cleared by
the list query, and reported by the changed query. -/
structure ReqState where
  includeList : List String
  includeMap : String → Bool
  changed : Bool

/-- The goroutine's initial state (filterdir.go:339-340): empty list, empty
map (a Go map lookup of an absent key yields `false`), flag clear. -/
def initState : ReqState :=
  ⟨[], fun _ => false, false⟩

/-- The `case r := <-requests` arm (filterdir.go:345-350): insert the path
if absent and mark the state changed. -/
def recordOp (s : ReqState) (r : String) : ReqState :=
  if s.includeMap r = false then
    { includeList := s.includeList ++ [r],
      includeMap := fun x => if x = r then true else s.includeMap x,
      changed := true }
  else s

/-- Go's `sort.StringSlice(includeList).Sort()`: ascending lexicographic
sort, modelled by insertion sort (any correct sort of a duplicate-free list
produces the same result). -/
def sortStrings (l : List String) : List String :=
  l.insertionSort (· ≤ ·)

/-- The `case <-qchan` arm plus `sortedList.List` (filterdir.go:351-359,
379-382): sort only when the state changed since the last sort, clear the
flag, and hand out a copy of the (now sorted) list. -/
def listOp (s : ReqState) : List String × ReqState :=
  let s' := if s.changed
    then { s with includeList := sortStrings s.includeList, changed := false }
    else s
  (s'.includeList, s')

/-- The `case cchan <- changed` arm plus `sortedList.Changed`
(filterdir.go:360, 384-386): report the flag; the state is untouched. -/
def changedOp (s : ReqState) : Bool × ReqState :=
  (s.changed, s)

/-- The `case <-clear` arm plus `sortedList.Clear` (filterdir.go:361-364,
388-390): fresh empty list and map, flag set. -/
def clearOp (_ : ReqState) : ReqState :=
  ⟨[], fun _ => false, true⟩

theorem recordOp_changed_mono (s : ReqState) (r : String) (h : s.changed = true) :
    (recordOp s r).changed = true := by
  unfold recordOp
  split
  · rfl
  · exact h

theorem foldl_recordOp_changed_mono (rs : List String) :
    ∀ s : ReqState, s.changed = true → (rs.foldl recordOp s).changed = true := by
  induction rs with
  | nil => intro s h; exact h
  | cons r rs ih =>
    intro s h
    exact ih (recordOp s r) (recordOp_changed_mono s r h)

theorem foldl_recordOp_of_not_changed (rs : List String) :
    ∀ s : ReqState, (rs.foldl recordOp s).changed = false → rs.foldl recordOp s = s := by
  induction rs with
  | nil => intro s _; rfl
  | cons r rs ih =>
    intro s h
    rw [List.foldl_cons] at h ⊢
    by_cases hm : s.includeMap r = false
    · exfalso
      have : (recordOp s r).changed = true := by
        unfold recordOp
        rw [if_pos hm]
      have := foldl_recordOp_changed_mono rs _ this
      rw [h] at this
      exact Bool.false_ne_true this
    · have hsr : recordOp s r = s := by
        unfold recordOp
        rw [if_neg hm]
      rw [hsr] at h ⊢
      exact ih s h

theorem records_spec (rs : List String) :
    ∀ s : ReqState, s.includeList.Nodup →
      (∀ p, p ∈ s.includeList ↔ s.includeMap p = true) →
      ((rs.foldl recordOp s).includeList.Nodup ∧
       (∀ p, p ∈ (rs.foldl recordOp s).includeList ↔ (rs.foldl recordOp s).includeMap p = true) ∧
       (∀ p, p ∈ (rs.foldl recordOp s).includeList ↔ (p ∈ s.includeList ∨ p ∈ rs))) := by
  induction rs with
  | nil =>
    intro s hnd hiff
    refine ⟨hnd, hiff, ?_⟩
    intro p
    simp
  | cons r rs ih =>
    intro s hnd hiff
    rw [List.foldl_cons]
    by_cases hm : s.includeMap r = false
    · have hr : r ∉ s.includeList := by
        intro hcon
        rw [hiff r, hm] at hcon
        exact Bool.false_ne_true hcon
      have hrec : recordOp s r =
          { includeList := s.includeList ++ [r],
            includeMap := fun x => if x = r then true else s.includeMap x,
            changed := true } := by
        unfold recordOp
        rw [if_pos hm]
      rw [hrec]
      have hnd' : (s.includeList ++ [r]).Nodup := by
        rw [List.nodup_append]
        exact ⟨hnd, List.nodup_singleton r, by simpa using hr⟩
      have hiff' : ∀ p, p ∈ s.includeList ++ [r] ↔
          (if p = r then true else s.includeMap p) = true := by
        intro p
        by_cases hp : p = r
        · subst hp
          simp
        · simp only [List.mem_append, List.mem_singleton, hp, if_neg hp, or_false]
          exact hiff p
      obtain ⟨c1, c2, c3⟩ := ih
        { includeList := s.includeList ++ [r],
          includeMap := fun x => if x = r then true else s.includeMap x,
          changed := true } hnd' hiff'
      refine ⟨c1, c2, ?_⟩
      intro p
      rw [c3 p]
      simp only [List.mem_append, List.mem_singleton, List.mem_cons]
      tauto
    · have hsr : recordOp s r = s := by
        unfold recordOp
        rw [if_neg hm]
      rw [hsr]
      obtain ⟨c1, c2, c3⟩ := ih s hnd hiff
      refine ⟨c1, c2, ?_⟩
      intro p
      rw [c3 p]
      have hrs : r ∈ s.includeList := by
        rw [hiff r]
        revert hm
        cases s.includeMap r
        · intro hm
          exact absurd rfl hm
        · intro _
          rfl
      simp only [List.mem_cons]
      constructor
      · rintro (h | h)
        · exact Or.inl h
        · exact Or.inr (Or.inr h)
      · rintro (h | h | h)
        · exact Or.inl h
        · subst h
          exact Or.inl hrs
        · exact Or.inr h

/-- C3: for every sequence of recorded requests, the list query returns each
distinct recorded path exactly once, in ascending lexicographic order.  (The
Go code additionally hands out a fresh copy of the slice,
filterdir.go:357-359; in this value-level model the returned list is a pure
value, so later mutations of the state are unobservable by construction.) -/
theorem snapshot_sorted_dedup (rs : List String) :
    List.Sorted (· ≤ ·) (listOp (rs.foldl recordOp initState)).1 ∧
    ∀ p : String,
      (listOp (rs.foldl recordOp initState)).1.count p = if p ∈ rs then 1 else 0 := by
  obtain ⟨hnd, -, hmem⟩ := records_spec rs initState
    (by simp [initState]) (by simp [initState])
  have hmem' : ∀ p, p ∈ (rs.foldl recordOp initState).includeList ↔ p ∈ rs := by
    intro p
    rw [hmem p]
    simp [initState]
  by_cases hc : (rs.foldl recordOp initState).changed = true
  · have h1 : (listOp (rs.foldl recordOp initState)).1
        = sortStrings (rs.foldl recordOp initState).includeList := by
      simp [listOp, hc]
    rw [h1]
    constructor
    · exact List.sorted_insertionSort _ _
    · intro p
      have hperm : (sortStrings (rs.foldl recordOp initState).includeList).Perm
          (rs.foldl recordOp initState).includeList := List.perm_insertionSort _ _
      rw [hperm.count_eq]
      by_cases hp : p ∈ rs
      · rw [if_pos hp]
        exact List.count_eq_one_of_mem hnd ((hmem' p).mpr hp)
      · rw [if_neg hp, List.count_eq_zero]
        intro hcon
        exact hp ((hmem' p).mp hcon)
  · have hc' : (rs.foldl recordOp initState).changed = false := by
      revert hc
      cases (rs.foldl recordOp initState).changed
      · intro _
        rfl
      · intro hc
        exact absurd rfl hc
    have hfix := foldl_recordOp_of_not_changed rs initState hc'
    have h1 : (listOp (rs.foldl recordOp initState)).1
        = (rs.foldl recordOp initState).includeList := by
      simp [listOp, hc']
    rw [h1, hfix]
    constructor
    · exact List.sorted_nil
    · intro p
      have hp : p ∉ rs := by
        intro hcon
        have := (hmem' p).mpr hcon
        rw [hfix] at this
        simp [initState] at this
      simp [initState, hp]

/-- C4, counterexample: the change signal is NOT independent of the list
query.  Recording `"/a"` and then taking a snapshot makes the subsequent
changed query report `false`, while without the snapshot it reports `true`:
the snapshot cleared the one shared `changed` boolean (filterdir.go:351-356),
so taking a Snapshot/List does alter what Changed() subsequently reports. -/
theorem changed_cleared_by_snapshot :
    (changedOp (listOp (recordOp initState "/a")).2).1 = false ∧
    (changedOp (recordOp initState "/a")).1 = true :=
  ⟨rfl, rfl⟩

/-- C4, amended: the changed query itself is pure — it mutates no recorder
state, so consulting it does not alter whether the next list query re-sorts;
but the signal it reports is the same boolean that the list query clears,
not an independent flag. -/
theorem changed_query_pure (s : ReqState) :
    (changedOp s).2 = s ∧ listOp (changedOp s).2 = listOp s :=
  ⟨rfl, rfl⟩

/-- C7: after a clear, the next list query returns the empty sequence and
the changed query reports `true` (the clear arm, filterdir.go:361-364,
empties both containers and sets the flag). -/
theorem clear_resets (s : ReqState) :
    (listOp (clearOp s)).1 = [] ∧ (changedOp (clearOp s)).1 = true :=
  ⟨rfl, rfl⟩

/-- Helper: list `contains` agrees with membership. -/
theorem contains_iff_mem (l : List String) (s : String) : l.contains s = true ↔ s ∈ l := by
  simp [List.contains]

/-- C8, counterexample: `fillMissing` leaves `Filename` and `VariableComment`
empty rather than defaulting them (their documented defaults are applied
downstream by the external vfsgen generator, not by this repository's
defaulting step), refuting that every missing option is defaulted here. -/
theorem fillMissing_leaves_two_empty :
    (Options.fillMissing ⟨"", "", "", "", "", "", ""⟩).Filename = "" ∧
    (Options.fillMissing ⟨"", "", "", "", "", "", ""⟩).VariableComment = "" :=
  ⟨rfl, rfl⟩

/-- C8, amended: `fillMissing` silently defaults exactly `PackageName`,
`VariableName`, `ListFileName`, `VfsgenBuildTags` and `ListFileBuildTags`
when they are empty, passes supplied values through unchanged, and never
rejects anything (it is total); `Filename` and `VariableComment` are passed
through untouched, their defaults being the downstream generator's. -/
theorem fillMissing_defaults (opt : Options) :
    (Options.fillMissing opt).Filename = opt.Filename ∧
    (Options.fillMissing opt).VariableComment = opt.VariableComment ∧
    (Options.fillMissing opt).PackageName
      = (if opt.PackageName = "" then "main" else opt.PackageName) ∧
    (Options.fillMissing opt).VariableName
      = (if opt.VariableName = "" then "assets" else opt.VariableName) ∧
    (Options.fillMissing opt).ListFileName
      = (if opt.ListFileName = "" then "assets_list.go" else opt.ListFileName) ∧
    (Options.fillMissing opt).VfsgenBuildTags
      = (if opt.VfsgenBuildTags = "" then "!dev" else opt.VfsgenBuildTags) ∧
    (Options.fillMissing opt).ListFileBuildTags
      = (if opt.ListFileBuildTags = "" then "dev" else opt.ListFileBuildTags) := by
  unfold Options.fillMissing
  split_ifs <;> simp_all

/-- A store file with an empty listing, used by the concrete witnesses. -/
def emptyStore : StoreFile :=
  ⟨fun _ => ([], none)⟩

/-- C1: in filter mode, opening a path that is not a member of the inclusion
set fails with an error classified as not-found by `os.IsNotExist`,
regardless of whether the store contains the path (store contains it:
`Open` succeeds at the store and the veto returns `os.ErrNotExist`,
filterdir.go:165; store lacks it: the store's own not-found error is
propagated, filterdir.go:147-149). -/
theorem filter_veto_notFound (f : FilterDir) (name : String)
    (hmode : f.FilterMode = true)
    (hmem : (effInclude f).contains name = false)
    (hstore : (f.dir name).isOk = true ∨ ∃ e, f.dir name = .error e ∧ e.isNotExist = true) :
    ∃ e, (FilterDir.Open f name).1 = .error e ∧ e.isNotExist = true := by
  unfold FilterDir.Open
  cases hd : f.dir name with
  | error e =>
    rcases hstore with h | ⟨e', he', hne⟩
    · rw [hd] at h
      simp [Except.isOk, Except.toBool] at h
    · rw [hd] at he'
      injection he' with heq
      subst heq
      exact ⟨e, rfl, hne⟩
  | ok file =>
    refine ⟨.errNotExist, ?_, rfl⟩
    have hnot : name ∉ effInclude f := by
      intro hcon
      rw [← contains_iff_mem, hmem] at hcon
      exact Bool.false_ne_true hcon
    simp [hmode, hmem, hnot]

/-- A filter-mode `FilterDir` whose store contains `/img/logo.png`. -/
def fdHas : FilterDir :=
  ⟨fun p => if p = "/img/logo.png" then .ok emptyStore else .error (.pathNotExist p),
   true, ["/css/app.css"], none, []⟩

/-- A filter-mode `FilterDir` whose store contains nothing. -/
def fdLacks : FilterDir :=
  ⟨fun p => .error (.pathNotExist p), true, ["/css/app.css"], none, []⟩

/-- Witness for C1: the veto fires identically whether the store has the
path (`fdHas`) or not (`fdLacks`). -/
theorem filter_veto_notFound_witness :
    (fdHas.FilterMode = true ∧ (effInclude fdHas).contains "/img/logo.png" = false
      ∧ (fdHas.dir "/img/logo.png").isOk = true) ∧
    (∃ e, (FilterDir.Open fdHas "/img/logo.png").1 = .error e ∧ e.isNotExist = true) ∧
    (∃ e, (FilterDir.Open fdLacks "/img/logo.png").1 = .error e ∧ e.isNotExist = true) :=
  ⟨⟨rfl, by decide, rfl⟩,
   filter_veto_notFound fdHas "/img/logo.png" rfl (by decide) (Or.inl rfl),
   filter_veto_notFound fdLacks "/img/logo.png" rfl (by decide)
     (Or.inr ⟨.pathNotExist "/img/logo.png", rfl, rfl⟩)⟩

/-- C6: in discovery mode, a store failure is propagated unchanged and
nothing is recorded (the state, in particular the requests channel, is
untouched); a store success records the name on the requests channel and
returns the opened resource (filterdir.go:146-156). -/
theorem discovery_passthrough (f : FilterDir) (name : String)
    (hmode : f.FilterMode = false) :
    (∀ e, f.dir name = .error e → FilterDir.Open f name = (.error e, f)) ∧
    (∀ sf, f.dir name = .ok sf →
      FilterDir.Open f name = (.ok (.store sf), { f with requests := f.requests ++ [name] })) := by
  constructor
  · intro e he
    unfold FilterDir.Open
    rw [he]
  · intro sf hsf
    unfold FilterDir.Open
    rw [hsf]
    show (if f.FilterMode = false then _ else _) = _
    rw [if_pos hmode]

/-- A discovery-mode `FilterDir` whose store contains only `/a`. -/
def fdDisc : FilterDir :=
  ⟨fun p => if p = "/a" then .ok emptyStore else .error (.pathNotExist p),
   false, [], none, []⟩

/-- Witness for C6: a failing open propagates the store error and records
nothing; a successful open records the path. -/
theorem discovery_passthrough_witness :
    fdDisc.FilterMode = false ∧
    FilterDir.Open fdDisc "/b" = (.error (.pathNotExist "/b"), fdDisc) ∧
    FilterDir.Open fdDisc "/a"
      = (.ok (.store emptyStore), { fdDisc with requests := fdDisc.requests ++ ["/a"] }) :=
  ⟨rfl,
   (discovery_passthrough fdDisc "/b" rfl).1 (.pathNotExist "/b") rfl,
   (discovery_passthrough fdDisc "/a" rfl).2 emptyStore rfl⟩

/-- C5: for every directory file opened through the wrapper and every count,
`Readdir` hands back exactly those entries of the store's listing whose full
path — the stored name with a trailing separator stripped, then `"/"`, then
the entry name — is a member of the include set, in the store's order
(a sublist given by `filter`), and passes the store's error value through
unchanged (filterdir.go:265-278). -/
theorem readdir_filters (f : File) (count : Int) (h : f.name ≠ "") :
    ∃ out, File.Readdir f count = some out ∧
      out.1.1 = (f.file.readdir count).1.filter
        (fun i => f.includeSet.contains (stripSlash f.name ++ "/" ++ i.name)) ∧
      out.1.2 = (f.file.readdir count).2 ∧
      out.1.1.Sublist (f.file.readdir count).1 ∧
      (∀ i, i ∈ out.1.1 ↔
        (i ∈ (f.file.readdir count).1
          ∧ (stripSlash f.name ++ "/" ++ i.name) ∈ f.includeSet)) := by
  unfold File.Readdir
  rw [if_neg h]
  refine ⟨_, rfl, rfl, rfl, List.filter_sublist _, ?_⟩
  intro i
  rw [List.mem_filter, contains_iff_mem]

/-- The entry `css` of the spec's `Readdir` example. -/
def cssEntry : FileInfo := ⟨"css", 0⟩

/-- The entry `img` of the spec's `Readdir` example. -/
def imgEntry : FileInfo := ⟨"img", 1⟩

/-- A store file listing the two root children of the spec's example. -/
def rootStore : StoreFile := ⟨fun _ => ([cssEntry, imgEntry], none)⟩

/-- The root directory as opened in filter mode in the spec's example, with
include set `{"/", "/css", "/css/app.css"}`. -/
def rootFile : File := ⟨rootStore, "/", ["/", "/css", "/css/app.css"]⟩

/-- Witness for C5 at the spec's example: of the root children `css` and
`img`, only `css` survives the filter. -/
theorem readdir_filters_witness :
    rootFile.name ≠ "" ∧
    (∃ out, File.Readdir rootFile (-1) = some out ∧
      out.1.1 = [cssEntry] ∧ out.1.2 = none) ∧
    File.Readdir rootFile (-1)
      = some (([cssEntry], none), ⟨rootStore, "", ["/", "/css", "/css/app.css"]⟩) := by
  refine ⟨by decide, ?_, by rfl⟩
  obtain ⟨out, h1, h2, h3, -, -⟩ := readdir_filters rootFile (-1) (by decide)
  refine ⟨out, h1, ?_, ?_⟩
  · rw [h2]
    rfl
  · rw [h3]
    rfl

/-- A filter-mode `FilterDir` over a store containing only the root, with an
empty include list (the root is always in the inclusion set). -/
def fdRoot : FilterDir :=
  ⟨fun p => if p = "/" then .ok emptyStore else .error (.pathNotExist p),
   true, [], none, []⟩

/-- C9, counterexample: a filter-mode open of `"/"` yields a `File` with the
non-empty name `"/"`, yet the out-of-range branch IS reachable on it: the
first `Readdir` strips the name to `""` and writes it back, so a second
`Readdir` call evaluates `f.name[len(f.name)-1:]` on the empty name (the
`none` result models that out-of-range slice panic). -/
theorem readdir_root_second_call :
    (FilterDir.Open fdRoot "/").1 = .ok (.filtered ⟨emptyStore, "/", ["/"]⟩) ∧
    (("/" : String) ≠ "") ∧
    File.Readdir ⟨emptyStore, "/", ["/"]⟩ (-1)
      = some (([], none), ⟨emptyStore, "", ["/"]⟩) ∧
    File.Readdir ⟨emptyStore, "", ["/"]⟩ (-1) = none :=
  ⟨rfl, by decide, rfl, rfl⟩

/-- C9, amended: `Readdir` evaluates the slice `f.name[len(f.name)-1:]`
before filtering, so a call is defined exactly when the stored name is
nonempty; a `File` produced by a filter-mode `Open` of a nonempty name has
that name, so its FIRST `Readdir` call cannot reach the out-of-range branch
(later calls can, once the name has been stripped to empty). -/
theorem readdir_defined_iff_name_nonempty (fd : FilterDir) (name : String)
    (fl : File) (count : Int)
    (hopen : (FilterDir.Open fd name).1 = .ok (.filtered fl)) (hname : name ≠ "") :
    (File.Readdir fl count).isSome = true ∧
    (∀ g : File, File.Readdir g count = none ↔ g.name = "") := by
  have hfl : fl.name = name := by
    unfold FilterDir.Open at hopen
    split at hopen
    · simp at hopen
    · split at hopen
      · simp at hopen
      · split at hopen
        · rename StoreFile => file
          have hp : Except.ok (OpenedFile.filtered (⟨file, name, effInclude fd⟩ : File))
              = Except.ok (OpenedFile.filtered fl) := hopen
          injection hp with heq
          injection heq with heq2
          rw [← heq2]
        · simp at hopen
  constructor
  · unfold File.Readdir
    rw [hfl, if_neg hname]
    rfl
  · intro g
    unfold File.Readdir
    by_cases hg : g.name = ""
    · rw [if_pos hg]
      simp [hg]
    · rw [if_neg hg]
      simp [hg]

/-- Witness for C9's amended statement at the concrete root fixture. -/
theorem readdir_defined_iff_name_nonempty_witness :
    ((FilterDir.Open fdRoot "/").1 = .ok (.filtered ⟨emptyStore, "/", ["/"]⟩)) ∧
    (("/" : String) ≠ "") ∧
    ((File.Readdir ⟨emptyStore, "/", ["/"]⟩ 0).isSome = true) :=
  ⟨rfl, by decide,
   (readdir_defined_iff_name_nonempty fdRoot "/" ⟨emptyStore, "/", ["/"]⟩ 0 rfl (by decide)).1⟩

/-- C10, counterexample: `Readdir` strips only a SINGLE trailing separator,
so for a `File` whose stored name is `"//"` the name written back is `"/"`,
which still ends in the separator — refuting that after any `Readdir` call
the stored name has no trailing separator. -/
theorem readdir_keeps_trailing_slash :
    File.Readdir ⟨emptyStore, "//", []⟩ 0
      = some ((([] : List FileInfo), (none : Option GoError)), ⟨emptyStore, "/", []⟩) ∧
    ("/" : String).data.getLast? = some '/' :=
  ⟨rfl, rfl⟩

/-- Helper: stripping is the identity on a name that does not end in the
separator. -/
theorem stripSlash_of_no_slash (s : String) (h : s.data.getLast? ≠ some '/') :
    stripSlash s = s := by
  unfold stripSlash
  rw [if_neg h]

/-- C10, amended: `Readdir` persistently strips exactly one trailing `/`
from the stored name and writes it back, leaving the include map and the
underlying store file unmodified; when the stripped name is nonempty and
does not itself end in `/`, a repeated call leaves the `File` unchanged. -/
theorem readdir_strips_one_slash (f : File) (count count2 : Int) (h : f.name ≠ "")
    (h2 : stripSlash f.name ≠ "")
    (h3 : (stripSlash f.name).data.getLast? ≠ some '/') :
    (∃ out, File.Readdir f count = some (out, { f with name := stripSlash f.name })) ∧
    (∃ out2, File.Readdir { f with name := stripSlash f.name } count2
      = some (out2, { f with name := stripSlash f.name })) := by
  have hss : stripSlash (stripSlash f.name) = stripSlash f.name :=
    stripSlash_of_no_slash (stripSlash f.name) h3
  constructor
  · unfold File.Readdir
    rw [if_neg h]
    exact ⟨_, rfl⟩
  · unfold File.Readdir
    have hg : ({ f with name := stripSlash f.name } : File).name = stripSlash f.name := rfl
    rw [hg, if_neg h2, hss]
    exact ⟨_, rfl⟩

/-- Witness for C10's amended statement at the name `"/css/"`. -/
theorem readdir_strips_one_slash_witness :
    ((("/css/" : String) ≠ "") ∧ stripSlash "/css/" ≠ ""
      ∧ (stripSlash "/css/").data.getLast? ≠ some '/') ∧
    (∃ out, File.Readdir ⟨emptyStore, "/css/", []⟩ 0
      = some (out, { (⟨emptyStore, "/css/", []⟩ : File) with name := stripSlash "/css/" })) ∧
    (∃ out2, File.Readdir { (⟨emptyStore, "/css/", []⟩ : File) with name := stripSlash "/css/" } 0
      = some (out2, { (⟨emptyStore, "/css/", []⟩ : File) with name := stripSlash "/css/" })) := by
  refine ⟨⟨by decide, by decide, by decide⟩, ?_⟩
  exact readdir_strips_one_slash ⟨emptyStore, "/css/", []⟩ 0 0 (by decide) (by decide) (by decide)
